import Mathlib

/-
Verification of skytemple_files/common/util.py against its specification.

The Python module is shallowly embedded below.  Byte buffers are modelled
as lists of natural numbers (one entry per byte).  Python slice reads
data[a:b] clamp out-of-range indices to the buffer's bounds, and slice
assignment data[a:b] = repl splices repl into the clamped range (possibly
changing the buffer's length); both are modelled accordingly.  Python's
int.to_bytes raises OverflowError when the value is not representable in
the requested width, so the write functions return an Option that is none
exactly in that case.  Fallible or possibly diverging routines (the
palette de-duplication search) are modelled with explicit fuel.
-/

namespace Skytemple

/-- Python slice read data[start:stop] for non-negative indices: both
indices are clamped to the list's bounds, never an error. -/
def pySlice (data : List Nat) (start stop : Nat) : List Nat :=
  (data.take stop).drop start

/-- Python slice assignment data[start:stop] = repl (for start ≤ stop):
the clamped range is replaced by repl, possibly changing the length. -/
def pySetSlice (data : List Nat) (start stop : Nat) (repl : List Nat) : List Nat :=
  data.take start ++ repl ++ data.drop stop

/-- Value of a little-endian byte list, as int.from_bytes(bs, little). -/
def fromBytesLE : List Nat → Nat
  | [] => 0
  | b :: rest => b + 256 * fromBytesLE rest

/-- The n little-endian bytes of v, as v.to_bytes(n, little) for v < 256^n. -/
def toBytesLE : Nat → Nat → List Nat
  | 0, _ => []
  | n + 1, v => v % 256 :: toBytesLE n (v / 256)

/-- Two's-complement value of a little-endian byte list, as
int.from_bytes(bs, little, signed=True). -/
def sintOfBytesLE (bs : List Nat) : Int :=
  if 2 * fromBytesLE bs < 256 ^ bs.length then (fromBytesLE bs : Int)
  else (fromBytesLE bs : Int) - ((256 ^ bs.length : Nat) : Int)

/-- util.read_bytes (the debug-mode memoryview check has no effect). -/
def read_bytes (data : List Nat) (start : Nat) (length : Nat) : List Nat :=
  pySlice data start (start + length)

/-- util.read_uintle. -/
def read_uintle (data : List Nat) (start : Nat) (length : Nat) : Nat :=
  fromBytesLE (pySlice data start (start + length))

/-- util.read_sintle. -/
def read_sintle (data : List Nat) (start : Nat) (length : Nat) : Int :=
  sintOfBytesLE (pySlice data start (start + length))

/-- util.read_uintbe: big-endian bytes are the reverse of little-endian. -/
def read_uintbe (data : List Nat) (start : Nat) (length : Nat) : Nat :=
  fromBytesLE (pySlice data start (start + length)).reverse

/-- util.read_sintbe. -/
def read_sintbe (data : List Nat) (start : Nat) (length : Nat) : Int :=
  sintOfBytesLE (pySlice data start (start + length)).reverse

/-- util.write_uintle: to_bytes(length, little, signed=False) raises
OverflowError (modelled as none) unless 0 ≤ v < 256^length; otherwise the
encoded bytes replace the slice [start, start+length). -/
def write_uintle (data : List Nat) (to_write : Int) (start : Nat) (length : Nat) :
    Option (List Nat) :=
  if 0 ≤ to_write ∧ to_write < ((256 ^ length : Nat) : Int) then
    some (pySetSlice data start (start + length) (toBytesLE length to_write.toNat))
  else none

/-- util.write_sintle: signed write; representable iff
-(256^length)/2 ≤ v < (256^length)/2, encoded as v mod 256^length. -/
def write_sintle (data : List Nat) (to_write : Int) (start : Nat) (length : Nat) :
    Option (List Nat) :=
  if -((256 ^ length : Nat) : Int) ≤ 2 * to_write ∧
      2 * to_write < ((256 ^ length : Nat) : Int) then
    some (pySetSlice data start (start + length)
      (toBytesLE length ((to_write % ((256 ^ length : Nat) : Int)).toNat)))
  else none

/-- util.write_uintbe. -/
def write_uintbe (data : List Nat) (to_write : Int) (start : Nat) (length : Nat) :
    Option (List Nat) :=
  if 0 ≤ to_write ∧ to_write < ((256 ^ length : Nat) : Int) then
    some (pySetSlice data start (start + length) (toBytesLE length to_write.toNat).reverse)
  else none

/-- util.write_sintbe. -/
def write_sintbe (data : List Nat) (to_write : Int) (start : Nat) (length : Nat) :
    Option (List Nat) :=
  if -((256 ^ length : Nat) : Int) ≤ 2 * to_write ∧
      2 * to_write < ((256 ^ length : Nat) : Int) then
    some (pySetSlice data start (start + length)
      (toBytesLE length ((to_write % ((256 ^ length : Nat) : Int)).toNat)).reverse)
  else none

/-- util.lcm: x * y // gcd(x, y) with Python's floor division and
math.gcd (the non-negative gcd of the absolute values); Python raises
ZeroDivisionError (modelled as none) exactly when the gcd is 0. -/
def lcm (x y : Int) : Option Int :=
  if Int.gcd x y = 0 then none
  else some ((x * y).fdiv ((Int.gcd x y : Nat) : Int))

/-- Python str.endswith on strings modelled as character lists. -/
def pyEndsWith (s suffix : List Char) : Bool :=
  s.drop (s.length - suffix.length) == suffix

/-- An ndspy fnt Folder: file-name leaves plus named subfolders, as read
by the scanner (strings are modelled as character lists). -/
inductive Folder where
  | node (files : List (List Char)) (folders : List (List Char × Folder))

/-- The part of an ndspy NintendoDSRom that the scanner reads. -/
structure NintendoDSRom where
  filenames : Folder

mutual

/-- util._get_files_from_rom_with_extension__recursion: matching direct
files first (prefixed with the accumulated path), then each subfolder in
order with the path extended by its name and a slash. -/
def _get_files_from_rom_with_extension__recursion
    (path : List Char) (folder : Folder) (ext : List Char) : List (List Char) :=
  match folder with
  | .node files folders =>
    (files.filter (fun x => pyEndsWith x ('.' :: ext))).map (fun x => path ++ x) ++
      _gffrwe_folders path folders ext

/-- The for-loop over folder.folders inside the recursion, as a fold. -/
def _gffrwe_folders (path : List Char) (folders : List (List Char × Folder))
    (ext : List Char) : List (List Char) :=
  match folders with
  | [] => []
  | (name, sub) :: rest =>
    _get_files_from_rom_with_extension__recursion (path ++ name ++ ['/']) sub ext ++
      _gffrwe_folders path rest ext

end

/-- util.get_files_from_rom_with_extension. -/
def get_files_from_rom_with_extension (rom : NintendoDSRom) (ext : List Char) :
    List (List Char) :=
  _get_files_from_rom_with_extension__recursion [] rom.filenames ext

/-- The example tree of the specification: root files a.txt and b.bin and
one subfolder named sub containing c.txt. -/
def sampleTree : Folder :=
  Folder.node ["a.txt".toList, "b.bin".toList]
    [("sub".toList, Folder.node ["c.txt".toList] [])]

/-- A ROM whose name table is the example tree. -/
def sampleRom : NintendoDSRom := ⟨sampleTree⟩

/-- The extension queried in the specification's example. -/
def txtExt : List Char := "txt".toList

/-- The expected scan result of the specification's example. -/
def sampleScanOut : List (List Char) := ["a.txt".toList, "sub/c.txt".toList]

/-- Channel clamping to [0, 255] as done at the end of _mpcu__check. -/
def clamp255 (x : Int) : Int :=
  if x < 0 then 0 else if x > 255 then 255 else x

/-- The nine-branch candidate construction of _mpcu__check (branches for
change_next = 0..7 plus the final else branch), before clamping. -/
def mpcuNewColor (r g b : Int) (k : Nat) (a : Int) : List Int :=
  if k = 0 then [r + a, g, b]
  else if k = 1 then [r - a, g + a, b]
  else if k = 2 then [r, g - a, b + a]
  else if k = 3 then [r, g + a, b]
  else if k = 4 then [r + a, g, b]
  else if k = 5 then [r, g, b - a]
  else if k = 6 then [r - a, g - a, b - a]
  else if k = 7 then [r, g - a, b + a]
  else [r - a, g + a, b]

/-- One search step of _mpcu__check: perturb the previous candidate, clamp
every channel, advance change_next cyclically and bump change_amount after
a full pass through the eight steps.  none models the IndexError Python
raises when the color has fewer than three entries. -/
def mpcuStepState (c : List Int) (k : Nat) (a : Int) :
    Option (List Int × Nat × Int) :=
  match c with
  | r :: g :: b :: _ =>
    some ((mpcuNewColor r g b k a).map clamp255, (k + 1) % 8,
      if (k + 1) % 8 = 0 then a + 1 else a)
  | _ => none

/-- util._mpcu__check with explicit fuel: return the color unchanged if it
has not been collected yet, otherwise recurse on the perturbed candidate.
none models a run that does not return within the given fuel, or the
IndexError on a color with fewer than three entries. -/
def mpcuCheckFuel : Nat → List Int → List (List Int) → Nat → Int → Option (List Int)
  | 0, _, _, _, _ => none
  | fuel + 1, color, seen, k, a =>
    if color ∈ seen then
      match mpcuStepState color k a with
      | some (c2, k2, a2) => mpcuCheckFuel fuel c2 seen k2 a2
      | none => none
    else some color

/-- The color slices palette[i:i+3] for i = 0, 3, 6, ... taken by
make_palette_colors_unique (the final slice may be shorter than 3). -/
def chunks3 : List Int → List (List Int)
  | [] => []
  | [a] => [[a]]
  | [a, b] => [[a, b]]
  | a :: b :: c :: rest => [a, b, c] :: chunks3 rest

/-- The inner loop of make_palette_colors_unique over one palette's color
slices: each slice is checked against the running seen-set (with
change_next = 0 and change_amount = 1) and the result is appended to both
the output and the seen-set. -/
def mpcuGo (fuel : Nat) : List (List Int) → List (List Int) →
    Option (List (List Int) × List (List Int))
  | seen, [] => some ([], seen)
  | seen, c :: rest =>
    match mpcuCheckFuel fuel c seen 0 1 with
    | none => none
    | some nc =>
      match mpcuGo fuel (seen ++ [nc]) rest with
      | none => none
      | some (ncs, seen2) => some (nc :: ncs, seen2)

/-- The outer loop of make_palette_colors_unique over the palettes,
threading the single running seen-set; each output palette is the
flattened list of its processed color slices. -/
def mpcuPalettes (fuel : Nat) : List (List Int) → List (List Int) →
    Option (List (List Int) × List (List Int))
  | seen, [] => some ([], seen)
  | seen, p :: ps =>
    match mpcuGo fuel seen (chunks3 p) with
    | none => none
    | some (ncs, seen2) =>
      match mpcuPalettes fuel seen2 ps with
      | none => none
      | some (outs, seen3) => some (ncs.flatten :: outs, seen3)

/-- util.make_palette_colors_unique with explicit fuel for each color
search. -/
def make_palette_colors_unique (fuel : Nat) (inp : List (List Int)) :
    Option (List (List Int)) :=
  match mpcuPalettes fuel [] inp with
  | none => none
  | some (outs, _) => some outs

/-- Variant of mpcuNewColor whose final else branch (change_next outside
0..7) is replaced by a different result; agreement of the two check
functions shows that branch is never executed. -/
def mpcuNewColorAlt (r g b : Int) (k : Nat) (a : Int) : List Int :=
  if k = 0 then [r + a, g, b]
  else if k = 1 then [r - a, g + a, b]
  else if k = 2 then [r, g - a, b + a]
  else if k = 3 then [r, g + a, b]
  else if k = 4 then [r + a, g, b]
  else if k = 5 then [r, g, b - a]
  else if k = 6 then [r - a, g - a, b - a]
  else if k = 7 then [r, g - a, b + a]
  else [r, g, b]

/-- Step function built on mpcuNewColorAlt. -/
def mpcuStepStateAlt (c : List Int) (k : Nat) (a : Int) :
    Option (List Int × Nat × Int) :=
  match c with
  | r :: g :: b :: _ =>
    some ((mpcuNewColorAlt r g b k a).map clamp255, (k + 1) % 8,
      if (k + 1) % 8 = 0 then a + 1 else a)
  | _ => none

/-- _mpcu__check built on the variant step function. -/
def mpcuCheckFuelAlt : Nat → List Int → List (List Int) → Nat → Int → Option (List Int)
  | 0, _, _, _, _ => none
  | fuel + 1, color, seen, k, a =>
    if color ∈ seen then
      match mpcuStepStateAlt color k a with
      | some (c2, k2, a2) => mpcuCheckFuelAlt fuel c2 seen k2 a2
      | none => none
    else some color

/-- Inner palette loop built on the variant check. -/
def mpcuGoAlt (fuel : Nat) : List (List Int) → List (List Int) →
    Option (List (List Int) × List (List Int))
  | seen, [] => some ([], seen)
  | seen, c :: rest =>
    match mpcuCheckFuelAlt fuel c seen 0 1 with
    | none => none
    | some nc =>
      match mpcuGoAlt fuel (seen ++ [nc]) rest with
      | none => none
      | some (ncs, seen2) => some (nc :: ncs, seen2)

/-- Outer palette loop built on the variant check. -/
def mpcuPalettesAlt (fuel : Nat) : List (List Int) → List (List Int) →
    Option (List (List Int) × List (List Int))
  | seen, [] => some ([], seen)
  | seen, p :: ps =>
    match mpcuGoAlt fuel seen (chunks3 p) with
    | none => none
    | some (ncs, seen2) =>
      match mpcuPalettesAlt fuel seen2 ps with
      | none => none
      | some (outs, seen3) => some (ncs.flatten :: outs, seen3)

/-- make_palette_colors_unique built on the variant check. -/
def make_palette_colors_unique_alt (fuel : Nat) (inp : List (List Int)) :
    Option (List (List Int)) :=
  match mpcuPalettesAlt fuel [] inp with
  | none => none
  | some (outs, _) => some outs

/-- The eight perturbation steps of the cycle as (dR, dG, dB) multiples of
change_amount, read off the source's branches 0..7: R+, G+&R-, B+&G-, G+,
R+, B-, RGB all -, G-&B+. -/
def specDeltas : List (Int × Int × Int) :=
  [(1, 0, 0), (-1, 1, 0), (0, -1, 1), (0, 1, 0),
    (1, 0, 0), (0, 0, -1), (-1, -1, -1), (0, -1, 1)]

/-- The eight steps exactly as claim C4 lists them: identical to
specDeltas except that position 7 is G+&B+ instead of G-&B+. -/
def claimDeltas : List (Int × Int × Int) :=
  [(1, 0, 0), (-1, 1, 0), (0, -1, 1), (0, 1, 0),
    (1, 0, 0), (0, 0, -1), (-1, -1, -1), (0, 1, 1)]

/-- One step of the cycle described by a delta table: add the
amount-scaled deltas of step k to the previous candidate, clamp every
channel, advance the step index mod 8 and increase the amount by 1 after
each full pass. -/
def mpcuTableStep (deltas : List (Int × Int × Int)) (c : List Int) (k : Nat) (a : Int) :
    Option (List Int × Nat × Int) :=
  match c with
  | r :: g :: b :: _ =>
    match deltas.getD k (0, 0, 0) with
    | (dr, dg, db) =>
      some ([clamp255 (r + a * dr), clamp255 (g + a * dg), clamp255 (b + a * db)],
        (k + 1) % 8, if (k + 1) % 8 = 0 then a + 1 else a)
  | _ => none

/-- The search of _mpcu__check as described by a delta table: walk the
table-described cycle, applied to the previous perturbed candidate, until
a candidate outside the seen-set is found. -/
def mpcuCheckTableFuel (deltas : List (Int × Int × Int)) :
    Nat → List Int → List (List Int) → Nat → Int → Option (List Int)
  | 0, _, _, _, _ => none
  | fuel + 1, color, seen, k, a =>
    if color ∈ seen then
      match mpcuTableStep deltas color k a with
      | some (c2, k2, a2) => mpcuCheckTableFuel deltas fuel c2 seen k2 a2
      | none => none
    else some color

/-- The deterministic candidate path of the search: the state after n
perturbation steps from a given state (the path does not depend on the
seen-set; none models the IndexError on a short color). -/
def mpcuIter : Nat → List Int → Nat → Int → Option (List Int × Nat × Int)
  | 0, c, k, a => some (c, k, a)
  | n + 1, c, k, a =>
    match mpcuStepState c k a with
    | some (c2, k2, a2) => mpcuIter n c2 k2 a2
    | none => none

/-- Divergence of the search: no amount of fuel makes it return. -/
def mpcuDiverges (c : List Int) (seen : List (List Int)) (k : Nat) (a : Int) : Prop :=
  ∀ fuel, mpcuCheckFuel fuel c seen k a = none

/-- Termination of the search with a result outside the seen-set. -/
def mpcuTerminates (c : List Int) (seen : List (List Int)) (k : Nat) (a : Int) : Prop :=
  ∃ fuel r, mpcuCheckFuel fuel c seen k a = some r ∧ r ∉ seen

/-- All 16 777 216 RGB triples with every channel in [0, 255]. -/
def allColors : List (List Int) :=
  (List.range 256).flatMap fun r =>
    (List.range 256).flatMap fun g =>
      (List.range 256).map fun (b : Nat) => [(r : Int), (g : Int), (b : Int)]

theorem toBytesLE_length (n v : Nat) : (toBytesLE n v).length = n := by
  induction n generalizing v with
  | zero => rfl
  | succ n ih => simp [toBytesLE, ih]

theorem fromBytesLE_toBytesLE {n v : Nat} (h : v < 256 ^ n) :
    fromBytesLE (toBytesLE n v) = v := by
  induction n generalizing v with
  | zero =>
    simp only [pow_zero] at h
    simp [toBytesLE, fromBytesLE]
    omega
  | succ n ih =>
    have hlt : v / 256 < 256 ^ n := by
      rw [Nat.div_lt_iff_lt_mul (by norm_num : 0 < 256)]
      calc v < 256 ^ (n + 1) := h
        _ = 256 ^ n * 256 := by rw [pow_succ]
    simp [toBytesLE, fromBytesLE, ih hlt]
    omega

theorem pySlice_firstBytes (bs rest : List Nat) (n : Nat) (h : bs.length = n) :
    pySlice (bs ++ rest) 0 n = bs := by
  subst h
  simp [pySlice, List.take_left]

theorem sintOfBytesLE_decode (n u : Nat) (hu : u < 256 ^ n) :
    sintOfBytesLE (toBytesLE n u) =
      if 2 * u < 256 ^ n then (u : Int) else (u : Int) - ((256 ^ n : Nat) : Int) := by
  unfold sintOfBytesLE
  rw [toBytesLE_length, fromBytesLE_toBytesLE hu]

theorem emod_cases (v : Int) (M : Nat) (h0 : 0 < M)
    (hlo : -((M : Nat) : Int) ≤ 2 * v) (hhi : 2 * v < ((M : Nat) : Int)) :
    (0 ≤ v ∧ v % ((M : Nat) : Int) = v) ∨
      (v < 0 ∧ v % ((M : Nat) : Int) = v + ((M : Nat) : Int)) := by
  rcases le_or_lt 0 v with hv | hv
  · exact Or.inl ⟨hv, Int.emod_eq_of_lt hv (by omega)⟩
  · refine Or.inr ⟨hv, ?_⟩
    have h2 : (v + ((M : Nat) : Int) * 1) % ((M : Nat) : Int) = v % ((M : Nat) : Int) :=
      Int.add_mul_emod_self_left v ((M : Nat) : Int) 1
    rw [mul_one] at h2
    rw [← h2]
    exact Int.emod_eq_of_lt (by omega) (by omega)

theorem sint_encode_decode (n : Nat) (v : Int)
    (hlo : -((256 ^ n : Nat) : Int) ≤ 2 * v) (hhi : 2 * v < ((256 ^ n : Nat) : Int)) :
    sintOfBytesLE (toBytesLE n ((v % ((256 ^ n : Nat) : Int)).toNat)) = v := by
  have hM : 0 < 256 ^ n := Nat.pos_pow_of_pos n (by norm_num)
  have hMz : ((256 ^ n : Nat) : Int) ≠ 0 := by
    have : (0 : Int) < ((256 ^ n : Nat) : Int) := by exact_mod_cast hM
    omega
  have h0 : 0 ≤ v % ((256 ^ n : Nat) : Int) := Int.emod_nonneg v hMz
  have h1 : v % ((256 ^ n : Nat) : Int) < ((256 ^ n : Nat) : Int) :=
    Int.emod_lt_of_pos v (by omega)
  have hu : (((v % ((256 ^ n : Nat) : Int)).toNat : Nat) : Int) = v % ((256 ^ n : Nat) : Int) :=
    Int.toNat_of_nonneg h0
  have hult : (v % ((256 ^ n : Nat) : Int)).toNat < 256 ^ n := by omega
  rw [sintOfBytesLE_decode _ _ hult]
  rcases emod_cases v (256 ^ n) hM hlo hhi with ⟨hv, hk⟩ | ⟨hv, hk⟩
  · rw [hk] at hu
    rw [if_pos (by omega)]
    omega
  · rw [hk] at hu
    rw [if_neg (by omega)]
    omega

/-- Claim C1: for byte widths 1–8, writing a representable value at offset 0
and reading it back with the matching read function returns the value, for
all four codec pairs (unsigned/signed, little/big endian). -/
theorem intCodec_roundtrip (n : Nat) (h1 : 1 ≤ n) (h8 : n ≤ 8) (buf : List Nat) :
    (∀ v : Int, 0 ≤ v → v < ((256 ^ n : Nat) : Int) →
      ∃ buf2, write_uintle buf v 0 n = some buf2 ∧ (read_uintle buf2 0 n : Int) = v) ∧
    (∀ v : Int, 0 ≤ v → v < ((256 ^ n : Nat) : Int) →
      ∃ buf2, write_uintbe buf v 0 n = some buf2 ∧ (read_uintbe buf2 0 n : Int) = v) ∧
    (∀ v : Int, -((256 ^ n : Nat) : Int) ≤ 2 * v → 2 * v < ((256 ^ n : Nat) : Int) →
      ∃ buf2, write_sintle buf v 0 n = some buf2 ∧ read_sintle buf2 0 n = v) ∧
    (∀ v : Int, -((256 ^ n : Nat) : Int) ≤ 2 * v → 2 * v < ((256 ^ n : Nat) : Int) →
      ∃ buf2, write_sintbe buf v 0 n = some buf2 ∧ read_sintbe buf2 0 n = v) := by
  refine ⟨?_, ?_, ?_, ?_⟩
  · intro v hv0 hv1
    have hvn : v.toNat < 256 ^ n := by omega
    refine ⟨toBytesLE n v.toNat ++ buf.drop (0 + n), ?_, ?_⟩
    · unfold write_uintle
      rw [if_pos ⟨hv0, hv1⟩]
      simp [pySetSlice]
    · unfold read_uintle
      rw [pySlice_firstBytes _ _ _ (by rw [toBytesLE_length]; omega),
        fromBytesLE_toBytesLE hvn]
      omega
  · intro v hv0 hv1
    have hvn : v.toNat < 256 ^ n := by omega
    refine ⟨(toBytesLE n v.toNat).reverse ++ buf.drop (0 + n), ?_, ?_⟩
    · unfold write_uintbe
      rw [if_pos ⟨hv0, hv1⟩]
      simp [pySetSlice]
    · unfold read_uintbe
      rw [pySlice_firstBytes _ _ _ (by rw [List.length_reverse, toBytesLE_length]; omega),
        List.reverse_reverse, fromBytesLE_toBytesLE hvn]
      omega
  · intro v hlo hhi
    refine ⟨toBytesLE n ((v % ((256 ^ n : Nat) : Int)).toNat) ++ buf.drop (0 + n), ?_, ?_⟩
    · unfold write_sintle
      rw [if_pos ⟨hlo, hhi⟩]
      simp [pySetSlice]
    · unfold read_sintle
      rw [pySlice_firstBytes _ _ _ (by rw [toBytesLE_length]; omega)]
      exact sint_encode_decode n v hlo hhi
  · intro v hlo hhi
    refine ⟨(toBytesLE n ((v % ((256 ^ n : Nat) : Int)).toNat)).reverse ++ buf.drop (0 + n),
      ?_, ?_⟩
    · unfold write_sintbe
      rw [if_pos ⟨hlo, hhi⟩]
      simp [pySetSlice]
    · unfold read_sintbe
      rw [pySlice_firstBytes _ _ _ (by rw [List.length_reverse, toBytesLE_length]; omega),
        List.reverse_reverse]
      exact sint_encode_decode n v hlo hhi

/-- Witness for C1 at n = 2, v = 300 (unsigned LE) and v = -2 (signed LE). -/
theorem intCodec_roundtrip_witness :
    (read_uintle [44, 1, 7] 0 2 : Int) = 300 ∧ read_sintle [254, 255, 7] 0 2 = -2 := by
  obtain ⟨buf2, hw, hr⟩ :=
    (intCodec_roundtrip 2 (by norm_num) (by norm_num) [7, 7, 7]).1 300
      (by norm_num) (by norm_num)
  obtain ⟨buf3, hw2, hr2⟩ :=
    (intCodec_roundtrip 2 (by norm_num) (by norm_num) [7, 7, 7]).2.2.1 (-2)
      (by norm_num) (by norm_num)
  have he : write_uintle [7, 7, 7] 300 0 2 = some [44, 1, 7] := by decide
  have he2 : write_sintle [7, 7, 7] (-2) 0 2 = some [254, 255, 7] := by decide
  rw [he] at hw
  rw [he2] at hw2
  injection hw with hb
  injection hw2 with hb2
  subst hb
  subst hb2
  exact ⟨hr, hr2⟩

theorem pySlice_of_start_ge (data : List Nat) (start stop : Nat) (h : data.length ≤ start) :
    pySlice data start stop = [] := by
  unfold pySlice
  apply List.drop_eq_nil_of_le
  have := List.length_take stop data
  omega

theorem pySetSlice_of_start_ge (data repl : List Nat) (start stop : Nat)
    (h : data.length ≤ start) (h2 : start ≤ stop) :
    pySetSlice data start stop repl = data ++ repl := by
  unfold pySetSlice
  rw [List.take_of_length_le h, List.drop_eq_nil_of_le (by omega), List.append_nil]

/-- Claim C2 counterexample: an out-of-range write and an out-of-range read
both return a value instead of failing.  write_uintle on a 2-byte buffer
with range [1, 4) succeeds and grows the buffer; read_uintle on a 1-byte
buffer with range [5, 7) returns 0. -/
theorem outOfRange_returns_value :
    write_uintle [5, 5] 1 1 3 = some [5, 1, 0, 0] ∧ read_uintle [5] 5 2 = 0 := by
  constructor <;> rfl

/-- Claim C2 amended: an out-of-range range is not an error.  When the
start offset is at or past the end of the buffer, every read operation
returns the value of the empty clamped slice (the empty byte string for
read_bytes, 0 for the integer reads), and every write of a representable
value succeeds, appending the encoded bytes to the buffer. -/
theorem outOfRange_clamps (data : List Nat) (start length : Nat)
    (h : data.length ≤ start) :
    read_bytes data start length = [] ∧
    read_uintle data start length = 0 ∧ read_uintbe data start length = 0 ∧
    read_sintle data start length = 0 ∧ read_sintbe data start length = 0 ∧
    (∀ v : Int, 0 ≤ v → v < ((256 ^ length : Nat) : Int) →
      write_uintle data v start length = some (data ++ toBytesLE length v.toNat) ∧
      write_uintbe data v start length = some (data ++ (toBytesLE length v.toNat).reverse)) ∧
    (∀ v : Int, -((256 ^ length : Nat) : Int) ≤ 2 * v →
        2 * v < ((256 ^ length : Nat) : Int) →
      write_sintle data v start length =
        some (data ++ toBytesLE length ((v % ((256 ^ length : Nat) : Int)).toNat)) ∧
      write_sintbe data v start length =
        some (data ++ (toBytesLE length ((v % ((256 ^ length : Nat) : Int)).toNat)).reverse)) := by
  have hs := pySlice_of_start_ge data start (start + length) h
  refine ⟨?_, ?_, ?_, ?_, ?_, ?_, ?_⟩
  · unfold read_bytes; rw [hs]
  · unfold read_uintle; rw [hs]; rfl
  · unfold read_uintbe; rw [hs]; rfl
  · unfold read_sintle; rw [hs]; rfl
  · unfold read_sintbe; rw [hs]; rfl
  · intro v hv0 hv1
    constructor
    · unfold write_uintle
      rw [if_pos ⟨hv0, hv1⟩, pySetSlice_of_start_ge _ _ _ _ h (by omega)]
    · unfold write_uintbe
      rw [if_pos ⟨hv0, hv1⟩, pySetSlice_of_start_ge _ _ _ _ h (by omega)]
  · intro v hlo hhi
    constructor
    · unfold write_sintle
      rw [if_pos ⟨hlo, hhi⟩, pySetSlice_of_start_ge _ _ _ _ h (by omega)]
    · unfold write_sintbe
      rw [if_pos ⟨hlo, hhi⟩, pySetSlice_of_start_ge _ _ _ _ h (by omega)]

/-- Witness for the amended C2 at a fully out-of-range read and write. -/
theorem outOfRange_clamps_witness :
    read_uintle [5] 5 2 = 0 ∧
    write_uintle [5] 1 5 2 = some ([5] ++ toBytesLE 2 (Int.toNat 1)) :=
  ⟨(outOfRange_clamps [5] 5 2 (by norm_num)).2.1,
    ((outOfRange_clamps [5] 5 2 (by norm_num)).2.2.2.2.2.1 1
      (by norm_num) (by norm_num)).1⟩

/-- Claim C3: every write operation fails (returns none, producing no
modified buffer) when the value is not representable in the requested
width under the requested signedness, including negative values passed to
the unsigned variants. -/
theorem write_overflow_fails (data : List Nat) (start length : Nat) (v : Int) :
    ((v < 0 ∨ ((256 ^ length : Nat) : Int) ≤ v) →
      write_uintle data v start length = none ∧ write_uintbe data v start length = none) ∧
    ((2 * v < -((256 ^ length : Nat) : Int) ∨ ((256 ^ length : Nat) : Int) ≤ 2 * v) →
      write_sintle data v start length = none ∧ write_sintbe data v start length = none) := by
  constructor
  · intro h
    constructor
    · unfold write_uintle; rw [if_neg (by omega)]
    · unfold write_uintbe; rw [if_neg (by omega)]
  · intro h
    constructor
    · unfold write_sintle; rw [if_neg (by omega)]
    · unfold write_sintbe; rw [if_neg (by omega)]

/-- Witness for C3: writing 256 into one unsigned byte fails, as does
writing -1 unsigned and writing 128 into one signed byte. -/
theorem write_overflow_fails_witness :
    write_uintle [0] 256 0 1 = none ∧ write_uintle [0] (-1) 0 1 = none ∧
    write_sintle [0] 128 0 1 = none :=
  ⟨((write_overflow_fails [0] 0 1 256).1 (Or.inr (by norm_num))).1,
    ((write_overflow_fails [0] 0 1 (-1)).1 (Or.inl (by norm_num))).1,
    ((write_overflow_fails [0] 0 1 128).2 (Or.inr (by norm_num))).1⟩

/-- Claim C9: lcm returns x * y / gcd(x, y) (for natural inputs this is
Nat.lcm), lcm 4 6 = 12, lcm 1 1 = 1, and lcm fails exactly on x = y = 0
with a division-by-zero error. -/
theorem lcm_spec :
    (∀ x y : Int, ¬(x = 0 ∧ y = 0) →
      lcm x y = some ((x * y).fdiv ((Int.gcd x y : Nat) : Int))) ∧
    (∀ m n : Nat, ¬(m = 0 ∧ n = 0) →
      lcm (m : Int) (n : Int) = some ((Nat.lcm m n : Nat) : Int)) ∧
    lcm 4 6 = some 12 ∧ lcm 1 1 = some 1 ∧ lcm 0 0 = none := by
  have base : ∀ x y : Int, ¬(x = 0 ∧ y = 0) →
      lcm x y = some ((x * y).fdiv ((Int.gcd x y : Nat) : Int)) := by
    intro x y h
    unfold lcm
    rw [if_neg (fun hg => h (Int.gcd_eq_zero_iff.mp hg))]
  refine ⟨base, ?_, by decide, by decide, by decide⟩
  intro m n h
  rw [base (m : Int) (n : Int) (by
    intro hc
    exact h ⟨by exact_mod_cast hc.1, by exact_mod_cast hc.2⟩)]
  congr 1
  rw [Int.gcd_natCast_natCast, ← Nat.cast_mul]
  rw [show ((Nat.lcm m n : Nat) : Int) = ((m * n / Nat.gcd m n : Nat) : Int) from rfl]
  exact (Int.ofNat_fdiv (m * n) (Nat.gcd m n)).symm

/-- Witness for C9 at x = 2, y = 3 and at the natural pair (4, 6). -/
theorem lcm_spec_witness :
    lcm 2 3 = some ((2 * 3 : Int).fdiv ((Int.gcd 2 3 : Nat) : Int)) ∧
    lcm ((4 : Nat) : Int) ((6 : Nat) : Int) = some ((Nat.lcm 4 6 : Nat) : Int) :=
  ⟨lcm_spec.1 2 3 (by norm_num), lcm_spec.2.1 4 6 (by norm_num)⟩

theorem gffrwe_folders_eq (path : List Char) (fs : List (List Char × Folder))
    (ext : List Char) :
    _gffrwe_folders path fs ext =
      (fs.map (fun p =>
        _get_files_from_rom_with_extension__recursion (path ++ p.1 ++ ['/']) p.2 ext)).flatten := by
  induction fs with
  | nil => rfl
  | cons p rest ih =>
    cases p
    simp [_gffrwe_folders, ih]

/-- Claim C8: the scanner emits, at each node, the direct files whose
names end in dot-extension (in the folder's file order, prefixed by the
accumulated path), followed by the results of the subfolders in their
given order with the path extended by the subfolder name and a slash; on
the example tree with extension txt it returns [a.txt, sub/c.txt]. -/
theorem files_with_extension_spec :
    (∀ (path : List Char) (files : List (List Char))
        (folders : List (List Char × Folder)) (ext : List Char),
      _get_files_from_rom_with_extension__recursion path (Folder.node files folders) ext =
        (files.filter (fun x => pyEndsWith x ('.' :: ext))).map (fun x => path ++ x) ++
          (folders.map (fun p =>
            _get_files_from_rom_with_extension__recursion
              (path ++ p.1 ++ ['/']) p.2 ext)).flatten) ∧
    get_files_from_rom_with_extension sampleRom txtExt = sampleScanOut := by
  constructor
  · intro path files folders ext
    rw [_get_files_from_rom_with_extension__recursion, gffrwe_folders_eq]
  · decide

theorem mpcuNewColor_shape (r g b : Int) (k : Nat) (a : Int) :
    ∃ x y z, mpcuNewColor r g b k a = [x, y, z] := by
  unfold mpcuNewColor
  repeat' split
  all_goals exact ⟨_, _, _, rfl⟩

theorem clamp255_mem (x : Int) : 0 ≤ clamp255 x ∧ clamp255 x ≤ 255 := by
  unfold clamp255
  split
  · omega
  · split <;> omega

theorem mpcuCheckFuel_not_mem {fuel : Nat} {c : List Int} {seen : List (List Int)}
    {k : Nat} {a : Int} {r : List Int}
    (h : mpcuCheckFuel fuel c seen k a = some r) : r ∉ seen := by
  induction fuel generalizing c k a with
  | zero => simp [mpcuCheckFuel] at h
  | succ fuel ih =>
    rw [mpcuCheckFuel] at h
    by_cases hc : c ∈ seen
    · rw [if_pos hc] at h
      rcases hs : mpcuStepState c k a with _ | ⟨c2, k2, a2⟩
      · rw [hs] at h; exact absurd h (by simp)
      · rw [hs] at h; exact ih h
    · rw [if_neg hc] at h
      cases h
      exact hc

theorem mpcuCheckFuel_length {fuel : Nat} {c : List Int} {seen : List (List Int)}
    {k : Nat} {a : Int} {r : List Int}
    (h : mpcuCheckFuel fuel c seen k a = some r) :
    r = c ∨ (r.length = 3 ∧ 3 ≤ c.length) := by
  induction fuel generalizing c k a with
  | zero => simp [mpcuCheckFuel] at h
  | succ fuel ih =>
    rw [mpcuCheckFuel] at h
    by_cases hc : c ∈ seen
    · rw [if_pos hc] at h
      rcases hs : mpcuStepState c k a with _ | ⟨c2, k2, a2⟩
      · rw [hs] at h; exact absurd h (by simp)
      · rw [hs] at h
        right
        unfold mpcuStepState at hs
        match c, hs with
        | r0 :: g0 :: b0 :: t, hs =>
          simp only [Option.some.injEq] at hs
          obtain ⟨x, y, z, hxyz⟩ := mpcuNewColor_shape r0 g0 b0 k a
          have hc2 : c2.length = 3 := by
            have := congrArg (fun q => q.1.length) hs
            simp [hxyz] at this
            omega
          rcases ih h with rfl | ⟨h3, _⟩
          · exact ⟨hc2, by simp⟩
          · exact ⟨h3, by simp⟩
    · rw [if_neg hc] at h
      cases h
      exact Or.inl rfl

theorem chunks3_flatten (p : List Int) : (chunks3 p).flatten = p := by
  induction p using chunks3.induct <;> simp [chunks3, *]

theorem chunks3_length_le (p : List Int) : ∀ c ∈ chunks3 p, c.length ≤ 3 := by
  induction p using chunks3.induct with
  | case1 => simp [chunks3]
  | case2 a => simp [chunks3]
  | case3 a b => simp [chunks3]
  | case4 a b c rest ih =>
    simp only [chunks3, List.mem_cons]
    rintro x (rfl | hx)
    · simp
    · exact ih x hx

theorem mpcuGo_of_nodup (fuel : Nat) (hf : 1 ≤ fuel) :
    ∀ (chunks seen : List (List Int)), (seen ++ chunks).Nodup →
      mpcuGo fuel seen chunks = some (chunks, seen ++ chunks) := by
  intro chunks
  induction chunks with
  | nil => intro seen h; simp [mpcuGo]
  | cons c rest ih =>
    intro seen h
    have hc : c ∉ seen := by
      rcases List.nodup_append.mp h with ⟨-, -, hdisj⟩
      exact fun hcs => hdisj hcs (List.mem_cons_self c rest)
    obtain ⟨f, rfl⟩ : ∃ f, fuel = f + 1 := ⟨fuel - 1, by omega⟩
    have hchk : mpcuCheckFuel (f + 1) c seen 0 1 = some c := by
      rw [mpcuCheckFuel, if_neg hc]
    have h2 : ((seen ++ [c]) ++ rest).Nodup := by
      rw [List.append_assoc, List.singleton_append]
      exact h
    rw [mpcuGo, hchk]
    dsimp only
    rw [ih (seen ++ [c]) h2]
    simp

theorem mpcuPalettes_of_nodup (fuel : Nat) (hf : 1 ≤ fuel) :
    ∀ (ps seen : List (List Int)),
      (seen ++ (ps.map chunks3).flatten).Nodup →
      mpcuPalettes fuel seen ps = some (ps, seen ++ (ps.map chunks3).flatten) := by
  intro ps
  induction ps with
  | nil => intro seen h; simp [mpcuPalettes]
  | cons p rest ih =>
    intro seen h
    have hassoc : seen ++ ((p :: rest).map chunks3).flatten =
        (seen ++ chunks3 p) ++ (rest.map chunks3).flatten := by
      simp [List.append_assoc]
    rw [hassoc] at h
    have h1 : (seen ++ chunks3 p).Nodup :=
      (List.sublist_append_left _ _).nodup h
    rw [mpcuPalettes, mpcuGo_of_nodup fuel hf (chunks3 p) seen h1]
    dsimp only
    rw [ih (seen ++ chunks3 p) h]
    simp [chunks3_flatten, List.append_assoc]

/-- Claim C7: make_palette_colors_unique is the identity on input whose
flattened color slices contain no duplicate: every color is returned
unchanged, in order, so the output equals the input. -/
theorem mpcu_id_on_unique (fuel : Nat) (inp : List (List Int)) (hf : 1 ≤ fuel)
    (h : ((inp.map chunks3).flatten).Nodup) :
    make_palette_colors_unique fuel inp = some inp := by
  unfold make_palette_colors_unique
  rw [mpcuPalettes_of_nodup fuel hf inp [] (by simpa using h)]

/-- Witness for C7 on a two-palette input with six distinct colors. -/
theorem mpcu_id_on_unique_witness :
    make_palette_colors_unique 1 [[1, 2, 3, 4, 5, 6], [7, 8, 9]] =
      some [[1, 2, 3, 4, 5, 6], [7, 8, 9]] :=
  mpcu_id_on_unique 1 [[1, 2, 3, 4, 5, 6], [7, 8, 9]] (by norm_num) (by decide)

theorem mpcuGo_spec (fuel : Nat) :
    ∀ (chunks seen ncs seen2 : List (List Int)),
      (∀ c ∈ chunks, c.length ≤ 3) →
      mpcuGo fuel seen chunks = some (ncs, seen2) →
      seen2 = seen ++ ncs ∧
        List.Forall₂ (fun nc c => nc.length = c.length) ncs chunks ∧
        (seen.Nodup → seen2.Nodup) := by
  intro chunks
  induction chunks with
  | nil =>
    intro seen ncs seen2 _ h
    simp only [mpcuGo, Option.some.injEq, Prod.mk.injEq] at h
    obtain ⟨rfl, rfl⟩ := h
    exact ⟨by simp, List.Forall₂.nil, id⟩
  | cons c rest ih =>
    intro seen ncs seen2 hlen h
    rw [mpcuGo] at h
    rcases hchk : mpcuCheckFuel fuel c seen 0 1 with _ | nc
    · rw [hchk] at h; exact absurd h (by simp)
    · rw [hchk] at h
      dsimp only at h
      rcases hgo : mpcuGo fuel (seen ++ [nc]) rest with _ | ⟨ncs', seen2'⟩
      · rw [hgo] at h; exact absurd h (by simp)
      · rw [hgo] at h
        dsimp only at h
        simp only [Option.some.injEq, Prod.mk.injEq] at h
        obtain ⟨rfl, rfl⟩ := h
        obtain ⟨hA, hB, hC⟩ := ih (seen ++ [nc]) ncs' seen2'
          (fun x hx => hlen x (List.mem_cons_of_mem _ hx)) hgo
        refine ⟨?_, ?_, ?_⟩
        · rw [hA]; simp
        · refine List.Forall₂.cons ?_ hB
          have hle : c.length ≤ 3 := hlen c (List.mem_cons_self c rest)
          rcases mpcuCheckFuel_length hchk with rfl | ⟨h3, h3c⟩
          · rfl
          · omega
        · intro hnodup
          apply hC
          rw [List.nodup_append]
          refine ⟨hnodup, List.nodup_singleton nc, ?_⟩
          intro x hx hx2
          rw [List.mem_singleton] at hx2
          subst hx2
          exact mpcuCheckFuel_not_mem hchk hx

theorem forall2_flatten_length {ncs cs : List (List Int)}
    (h : List.Forall₂ (fun nc c => nc.length = c.length) ncs cs) :
    ncs.flatten.length = cs.flatten.length := by
  induction h with
  | nil => rfl
  | cons h1 _ ih => simp [h1, ih]

theorem chunks3_flatten_of_forall2 :
    ∀ (p : List Int) (ncs : List (List Int)),
      List.Forall₂ (fun nc c => nc.length = c.length) ncs (chunks3 p) →
      chunks3 ncs.flatten = ncs := by
  intro p
  induction p using chunks3.induct with
  | case1 =>
    intro ncs h
    rw [chunks3] at h
    cases h
    rfl
  | case2 a =>
    intro ncs h
    rw [chunks3] at h
    rcases h with _ | ⟨h1, h2⟩
    cases h2
    simp only [List.length_singleton] at h1
    obtain ⟨x, rfl⟩ := List.length_eq_one.mp h1
    rfl
  | case3 a b =>
    intro ncs h
    rw [chunks3] at h
    rcases h with _ | ⟨h1, h2⟩
    cases h2
    rw [show ([a, b] : List Int).length = 2 from rfl] at h1
    obtain ⟨x, y, rfl⟩ := List.length_eq_two.mp h1
    rfl
  | case4 a b c rest ih =>
    intro ncs h
    rw [chunks3] at h
    rcases h with _ | ⟨h1, h2⟩
    rw [show ([a, b, c] : List Int).length = 3 from rfl] at h1
    obtain ⟨x, y, z, rfl⟩ := List.length_eq_three.mp h1
    rename_i ncs'
    have : ([x, y, z] :: ncs').flatten = x :: y :: z :: ncs'.flatten := by simp
    rw [this, chunks3, ih ncs' h2]

theorem mpcuPalettes_spec (fuel : Nat) :
    ∀ (ps seen outs seen2 : List (List Int)),
      mpcuPalettes fuel seen ps = some (outs, seen2) →
      seen2 = seen ++ (outs.map chunks3).flatten ∧
        List.Forall₂ (fun o p => o.length = p.length) outs ps ∧
        (seen.Nodup → seen2.Nodup) := by
  intro ps
  induction ps with
  | nil =>
    intro seen outs seen2 h
    simp only [mpcuPalettes, Option.some.injEq, Prod.mk.injEq] at h
    obtain ⟨rfl, rfl⟩ := h
    exact ⟨by simp, List.Forall₂.nil, id⟩
  | cons p rest ih =>
    intro seen outs seen2 h
    rw [mpcuPalettes] at h
    rcases hgo : mpcuGo fuel seen (chunks3 p) with _ | ⟨ncs, seenB⟩
    · rw [hgo] at h; exact absurd h (by simp)
    · rw [hgo] at h
      dsimp only at h
      rcases hps : mpcuPalettes fuel seenB rest with _ | ⟨outs', seenC⟩
      · rw [hps] at h; exact absurd h (by simp)
      · rw [hps] at h
        dsimp only at h
        simp only [Option.some.injEq, Prod.mk.injEq] at h
        obtain ⟨rfl, rfl⟩ := h
        obtain ⟨gA, gB, gC⟩ :=
          mpcuGo_spec fuel (chunks3 p) seen ncs seenB (chunks3_length_le p) hgo
        obtain ⟨pA, pB, pC⟩ := ih seenB outs' seenC hps
        have hrec : chunks3 ncs.flatten = ncs := chunks3_flatten_of_forall2 p ncs gB
        refine ⟨?_, ?_, fun hnd => pC (gC hnd)⟩
        · rw [pA, gA, List.map_cons, hrec]
          simp
        · refine List.Forall₂.cons ?_ pB
          have := forall2_flatten_length gB
          rwa [chunks3_flatten p] at this

theorem forall2_length_getD {outs ps : List (List Int)}
    (h : List.Forall₂ (fun o p => o.length = p.length) outs ps) :
    ∀ i, (outs.getD i []).length = (ps.getD i []).length := by
  induction h with
  | nil => intro i; rfl
  | cons h1 _ ih =>
    intro i
    cases i with
    | zero => simpa using h1
    | succ i => simpa using ih i

/-- Claim C6: whenever make_palette_colors_unique returns, the output has
the same number of palettes as the input, each output palette has the same
length as the corresponding input palette, and the color slices of the
flattened output across all palettes are pairwise distinct. -/
theorem mpcu_shape_and_nodup (fuel : Nat) (inp out : List (List Int))
    (h : make_palette_colors_unique fuel inp = some out) :
    out.length = inp.length ∧
    (∀ i, (out.getD i []).length = (inp.getD i []).length) ∧
    ((out.map chunks3).flatten).Nodup := by
  unfold make_palette_colors_unique at h
  rcases hps : mpcuPalettes fuel [] inp with _ | ⟨outs, seen2⟩
  · rw [hps] at h; exact absurd h (by simp)
  · rw [hps] at h
    dsimp only at h
    injection h with h
    subst h
    obtain ⟨pA, pB, pC⟩ := mpcuPalettes_spec fuel inp [] outs seen2 hps
    refine ⟨pB.length_eq, forall2_length_getD pB, ?_⟩
    have hnd := pC List.nodup_nil
    rw [pA] at hnd
    simpa using hnd

/-- Witness for C6 on one palette of two identical colors: the first is
kept, the second perturbed, shape and global uniqueness hold. -/
theorem mpcu_shape_and_nodup_witness :
    make_palette_colors_unique 2 [[10, 10, 10, 10, 10, 10]] =
      some [[10, 10, 10, 11, 10, 10]] ∧
    (([[10, 10, 10, 11, 10, 10]] : List (List Int)).getD 0 []).length =
      (([[10, 10, 10, 10, 10, 10]] : List (List Int)).getD 0 []).length ∧
    ((([[10, 10, 10, 11, 10, 10]] : List (List Int)).map chunks3).flatten).Nodup :=
  ⟨by decide,
    (mpcu_shape_and_nodup 2 [[10, 10, 10, 10, 10, 10]] [[10, 10, 10, 11, 10, 10]]
      (by decide)).2.1 0,
    (mpcu_shape_and_nodup 2 [[10, 10, 10, 10, 10, 10]] [[10, 10, 10, 11, 10, 10]]
      (by decide)).2.2⟩

theorem mpcuNewColor_eq_alt (r g b : Int) (k : Nat) (a : Int) (h : k < 8) :
    mpcuNewColor r g b k a = mpcuNewColorAlt r g b k a := by
  interval_cases k <;> rfl

theorem mpcuCheckFuel_eq_alt :
    ∀ (fuel : Nat) (c : List Int) (seen : List (List Int)) (k : Nat) (a : Int),
      k < 8 → mpcuCheckFuel fuel c seen k a = mpcuCheckFuelAlt fuel c seen k a := by
  intro fuel
  induction fuel with
  | zero => intro c seen k a _; rfl
  | succ fuel ih =>
    intro c seen k a h
    rw [mpcuCheckFuel, mpcuCheckFuelAlt]
    by_cases hc : c ∈ seen
    · rw [if_pos hc, if_pos hc]
      rcases c with _ | ⟨r, _ | ⟨g, _ | ⟨b, t⟩⟩⟩
      · rfl
      · rfl
      · rfl
      · dsimp only [mpcuStepState, mpcuStepStateAlt]
        rw [mpcuNewColor_eq_alt r g b k a h]
        exact ih _ seen _ _ (by omega)
    · rw [if_neg hc, if_neg hc]

theorem mpcuGo_eq_alt (fuel : Nat) :
    ∀ (chunks seen : List (List Int)), mpcuGo fuel seen chunks = mpcuGoAlt fuel seen chunks := by
  intro chunks
  induction chunks with
  | nil => intro seen; rfl
  | cons c rest ih =>
    intro seen
    rw [mpcuGo, mpcuGoAlt, ← mpcuCheckFuel_eq_alt fuel c seen 0 1 (by norm_num)]
    rcases hchk : mpcuCheckFuel fuel c seen 0 1 with _ | nc
    · rfl
    · dsimp only
      rw [ih (seen ++ [nc])]

theorem mpcuPalettes_eq_alt (fuel : Nat) :
    ∀ (ps seen : List (List Int)),
      mpcuPalettes fuel seen ps = mpcuPalettesAlt fuel seen ps := by
  intro ps
  induction ps with
  | nil => intro seen; rfl
  | cons p rest ih =>
    intro seen
    rw [mpcuPalettes, mpcuPalettesAlt, ← mpcuGo_eq_alt fuel (chunks3 p) seen]
    rcases hgo : mpcuGo fuel seen (chunks3 p) with _ | ⟨ncs, seen2⟩
    · rfl
    · dsimp only
      rw [ih seen2]

/-- Claim C10: in every call of the check reachable from
make_palette_colors_unique, change_next stays in [0, 7] (the entry uses
change_next = 0 and each recursion passes (change_next + 1) % 8), so the
final else branch is never executed: the check agrees with a variant whose
else branch computes a different color, for every change_next < 8, and the
whole de-duplicator agrees with the variant-based one on every input. -/
theorem change_next_lt_8 :
    (∀ (fuel : Nat) (c : List Int) (seen : List (List Int)) (k : Nat) (a : Int),
      k < 8 → mpcuCheckFuel fuel c seen k a = mpcuCheckFuelAlt fuel c seen k a) ∧
    (∀ (fuel : Nat) (inp : List (List Int)),
      make_palette_colors_unique fuel inp = make_palette_colors_unique_alt fuel inp) := by
  refine ⟨mpcuCheckFuel_eq_alt, ?_⟩
  intro fuel inp
  unfold make_palette_colors_unique make_palette_colors_unique_alt
  rw [mpcuPalettes_eq_alt fuel inp []]

/-- Witness for C10: a nine-step search (which walks through every branch
index 0..7 and wraps) computes the same result in both variants. -/
theorem change_next_lt_8_witness :
    mpcuCheckFuel 12 [0, 0, 0] [[0, 0, 0]] 0 1 =
      mpcuCheckFuelAlt 12 [0, 0, 0] [[0, 0, 0]] 0 1 :=
  change_next_lt_8.1 12 [0, 0, 0] [[0, 0, 0]] 0 1 (by norm_num)

theorem mpcuStep_eq_table (c : List Int) (k : Nat) (a : Int) (h : k < 8) :
    mpcuStepState c k a = mpcuTableStep specDeltas c k a := by
  rcases c with _ | ⟨r, _ | ⟨g, _ | ⟨b, t⟩⟩⟩
  · rfl
  · rfl
  · rfl
  · dsimp only [mpcuStepState, mpcuTableStep]
    interval_cases k <;>
      simp [mpcuNewColor, specDeltas, mul_one, mul_zero, add_zero, mul_neg_one,
        ← sub_eq_add_neg]

theorem mpcuTableStep_k {ds : List (Int × Int × Int)} {c : List Int} {k : Nat}
    {a : Int} {st : List Int × Nat × Int}
    (h : mpcuTableStep ds c k a = some st) : st.2.1 = (k + 1) % 8 := by
  rcases c with _ | ⟨r, _ | ⟨g, _ | ⟨b, t⟩⟩⟩
  · exact absurd h (by simp [mpcuTableStep])
  · exact absurd h (by simp [mpcuTableStep])
  · exact absurd h (by simp [mpcuTableStep])
  · dsimp only [mpcuTableStep] at h
    rcases hd : ds.getD k (0, 0, 0) with ⟨dr, dg, db⟩
    rw [hd] at h
    injection h with h
    subst h
    rfl

/-- Claim C4 counterexample: on the concrete seen-set holding the first
eight candidates of the search from (100, 100, 100), the code (whose step
7 is G-&B+) returns (100, 99, 100), while the cycle exactly as the claim
lists it (step 7 G+&B+) would return (102, 101, 100). -/
theorem mpcu_step7_cex :
    mpcuCheckFuel 20 [100, 100, 100]
      [[100, 100, 100], [101, 100, 100], [100, 101, 100], [100, 100, 101],
        [100, 101, 101], [101, 101, 101], [101, 101, 100], [100, 100, 99]] 0 1 =
      some [100, 99, 100] ∧
    mpcuCheckTableFuel claimDeltas 20 [100, 100, 100]
      [[100, 100, 100], [101, 100, 100], [100, 101, 100], [100, 100, 101],
        [100, 101, 101], [101, 101, 101], [101, 101, 100], [100, 100, 99]] 0 1 =
      some [102, 101, 100] ∧
    ¬ ([100, 99, 100] : List Int) = [102, 101, 100] :=
  ⟨by decide, by decide, by decide⟩

/-- Claim C4 amended: the search walks the fixed 8-step cycle R+, G+&R-,
B+&G-, G+, R+, B-, RGB all -, G-&B+ (not G+&B+ at the eighth step), each
step scaled by change_amount and applied to the previous perturbed
candidate, every channel clamped to [0,255] after each perturbation, and
change_amount starting at 1 and increasing by 1 after each full pass: for
every step index below 8 the code's search equals the table-described
search. -/
theorem mpcu_matches_fixed_cycle :
    ∀ (fuel : Nat) (c : List Int) (seen : List (List Int)) (k : Nat) (a : Int),
      k < 8 →
      mpcuCheckFuel fuel c seen k a = mpcuCheckTableFuel specDeltas fuel c seen k a := by
  intro fuel
  induction fuel with
  | zero => intro c seen k a _; rfl
  | succ fuel ih =>
    intro c seen k a h
    rw [mpcuCheckFuel, mpcuCheckTableFuel]
    by_cases hc : c ∈ seen
    · rw [if_pos hc, if_pos hc, mpcuStep_eq_table c k a h]
      rcases hs : mpcuTableStep specDeltas c k a with _ | ⟨c2, k2, a2⟩
      · rfl
      · dsimp only
        have hk2 : k2 = (k + 1) % 8 := mpcuTableStep_k hs
        exact ih c2 seen k2 a2 (by omega)
    · rw [if_neg hc, if_neg hc]

/-- Witness for the amended C4 on the counterexample's seen-set. -/
theorem mpcu_matches_fixed_cycle_witness :
    mpcuCheckFuel 20 [100, 100, 100]
      [[100, 100, 100], [101, 100, 100], [100, 101, 100], [100, 100, 101],
        [100, 101, 101], [101, 101, 101], [101, 101, 100], [100, 100, 99]] 0 1 =
      mpcuCheckTableFuel specDeltas 20 [100, 100, 100]
        [[100, 100, 100], [101, 100, 100], [100, 101, 100], [100, 100, 101],
          [100, 101, 101], [101, 101, 101], [101, 101, 100], [100, 100, 99]] 0 1 :=
  mpcu_matches_fixed_cycle 20 [100, 100, 100]
    [[100, 100, 100], [101, 100, 100], [100, 101, 100], [100, 100, 101],
      [100, 101, 101], [101, 101, 101], [101, 101, 100], [100, 100, 99]] 0 1
    (by norm_num)

theorem mem_allColors_intro (r g b : Int) (h1 : 0 ≤ r) (h2 : r ≤ 255) (h3 : 0 ≤ g)
    (h4 : g ≤ 255) (h5 : 0 ≤ b) (h6 : b ≤ 255) : [r, g, b] ∈ allColors := by
  unfold allColors
  refine List.mem_flatMap.mpr ⟨r.toNat, List.mem_range.mpr (by omega), ?_⟩
  refine List.mem_flatMap.mpr ⟨g.toNat, List.mem_range.mpr (by omega), ?_⟩
  refine List.mem_map.mpr ⟨b.toNat, List.mem_range.mpr (by omega), ?_⟩
  rw [Int.toNat_of_nonneg h1, Int.toNat_of_nonneg h3, Int.toNat_of_nonneg h5]

theorem mem_allColors_elim {c : List Int} (h : c ∈ allColors) :
    ∃ r g b, c = [r, g, b] ∧ 0 ≤ r ∧ r ≤ 255 ∧ 0 ≤ g ∧ g ≤ 255 ∧ 0 ≤ b ∧ b ≤ 255 := by
  unfold allColors at h
  obtain ⟨r', hr, h⟩ := List.mem_flatMap.mp h
  obtain ⟨g', hg, h⟩ := List.mem_flatMap.mp h
  obtain ⟨b', hb, heq⟩ := List.mem_map.mp h
  rw [List.mem_range] at hr hg hb
  exact ⟨r', g', b', heq.symm, by omega, by omega, by omega, by omega, by omega, by omega⟩

theorem allColors_absorbs :
    ∀ (fuel : Nat) (c : List Int) (k : Nat) (a : Int), c ∈ allColors →
      mpcuCheckFuel fuel c allColors k a = none := by
  intro fuel
  induction fuel with
  | zero => intro c k a _; rfl
  | succ fuel ih =>
    intro c k a hc
    rw [mpcuCheckFuel, if_pos hc]
    obtain ⟨r, g, b, rfl, -⟩ := mem_allColors_elim hc
    dsimp only [mpcuStepState]
    obtain ⟨x, y, z, hxyz⟩ := mpcuNewColor_shape r g b k a
    rw [hxyz]
    dsimp only [List.map]
    apply ih
    exact mem_allColors_intro _ _ _ (clamp255_mem x).1 (clamp255_mem x).2
      (clamp255_mem y).1 (clamp255_mem y).2 (clamp255_mem z).1 (clamp255_mem z).2

/-- Claim C5 counterexample: with the finite seen-set of all 256^3 RGB
triples and start color (0, 0, 0), the recursive search never reaches a
candidate outside the seen-set — every perturbed candidate is clamped back
into the cube — so it diverges: termination fails for this finite
seen-set. -/
theorem mpcu_diverges_on_full_cube : mpcuDiverges [0, 0, 0] allColors 0 1 :=
  fun fuel =>
    allColors_absorbs fuel [0, 0, 0] 0 1
      (mem_allColors_intro 0 0 0 (by norm_num) (by norm_num) (by norm_num)
        (by norm_num) (by norm_num) (by norm_num))

/-- Claim C5 amended: the recursive search reaches, after finitely many
steps, a candidate outside the seen-set whenever some state of its
deterministic perturbation path has a color outside the seen-set; it does
not terminate for every finite seen-set (the counterexample's seen-set of
all clamped colors defeats it). -/
theorem mpcu_terminates_of_fresh_candidate :
    ∀ (n : Nat) (c : List Int) (seen : List (List Int)) (k : Nat) (a : Int)
      (st : List Int × Nat × Int),
      mpcuIter n c k a = some st → st.1 ∉ seen → mpcuTerminates c seen k a := by
  intro n
  induction n with
  | zero =>
    intro c seen k a st h hfresh
    injection h with h
    subst h
    exact ⟨1, c, by rw [mpcuCheckFuel, if_neg hfresh], hfresh⟩
  | succ n ih =>
    intro c seen k a st h hfresh
    by_cases hc : c ∈ seen
    · rw [mpcuIter] at h
      rcases hs : mpcuStepState c k a with _ | ⟨c2, k2, a2⟩
      · rw [hs] at h; exact absurd h (by simp)
      · rw [hs] at h
        dsimp only at h
        obtain ⟨fuel, r, hr, hrf⟩ := ih c2 seen k2 a2 st h hfresh
        refine ⟨fuel + 1, r, ?_, hrf⟩
        rw [mpcuCheckFuel, if_pos hc, hs]
        exact hr
    · exact ⟨1, c, by rw [mpcuCheckFuel, if_neg hc], hc⟩

/-- Witness for the amended C5: from (0, 0, 0) with only (0, 0, 0) seen,
the path's first step (1, 0, 0) is fresh, so the search terminates. -/
theorem mpcu_terminates_of_fresh_candidate_witness :
    mpcuTerminates [0, 0, 0] [[0, 0, 0]] 0 1 :=
  mpcu_terminates_of_fresh_candidate 1 [0, 0, 0] [[0, 0, 0]] 0 1 ([1, 0, 0], 1, 1)
    (by decide) (by decide)

end Skytemple
